import Mathlib

/-!
Shallow embedding of the anomaly-detection-system feature pipeline
(`src/features.rs`, `src/main.rs`).  Floating-point (`f64`) values are
modelled as exact rationals `ℚ`; the sentinel constants `f64::MAX` and
`f64::MIN` used by `Normalizer::new` are the exact rational values of those
IEEE-754 doubles.
-/

/-- `NUM_FEATURES` from `features.rs`. -/
def NUM_FEATURES : Nat := 6

/-- Exact rational value of `f64::MAX` = (2^53 − 1)·2^971. -/
def f64MAX : ℚ := (2 ^ 53 - 1) * 2 ^ 971

/-- Exact rational value of `f64::MIN` = −`f64::MAX`. -/
def f64MIN : ℚ := -f64MAX

/-- The `Normalizer` struct of `features.rs`: running per-feature `min`/`max`
bounds plus the `initialized` flag (field named `inited` here). -/
@[ext] structure Normalizer where
  min : List ℚ
  max : List ℚ
  inited : Bool
deriving DecidableEq, Repr

/-- `Normalizer::new`: `min` seeded with `f64::MAX`, `max` with `f64::MIN`,
flag false. -/
def Normalizer.new : Normalizer :=
  { min := List.replicate NUM_FEATURES f64MAX
    max := List.replicate NUM_FEATURES f64MIN
    inited := false }

/-- The effect on the `min` array of one pass of the loop in
`Normalizer::update` / `Normalizer::fit_batch`:
`if val < self.min[i] { self.min[i] = val; }` for each enumerated `val`.
A sample longer than the array would index out of bounds (Rust panics);
that branch is modelled by the checked variant `foldMin?` below. -/
def foldMin : List ℚ → List ℚ → List ℚ
  | mins, [] => mins
  | m :: mins, v :: vs => (if v < m then v else m) :: foldMin mins vs
  | [], _ :: _ => []

/-- The effect on the `max` array of the same loop:
`if val > self.max[i] { self.max[i] = val; }`. -/
def foldMax : List ℚ → List ℚ → List ℚ
  | maxs, [] => maxs
  | m :: maxs, v :: vs => (if m < v then v else m) :: foldMax maxs vs
  | [], _ :: _ => []

/-- `Normalizer::update`: expand the bounds with one sample, set the flag. -/
def Normalizer.update (n : Normalizer) (sample : List ℚ) : Normalizer :=
  { min := foldMin n.min sample
    max := foldMax n.max sample
    inited := true }

/-- `Normalizer::fit_batch`: the same loop body run over every sample of the
batch in order, then the flag is set (also when the batch is empty). -/
def Normalizer.fit_batch (n : Normalizer) (data : List (List ℚ)) : Normalizer :=
  { min := data.foldl foldMin n.min
    max := data.foldl foldMax n.max
    inited := true }

/-- The per-index map of `Normalizer::normalize` once initialized:
`range = max[i] - min[i]`; `0.5` when `range == 0.0`, else
`(val - min[i]) / range`.  Walks `min`, `max` and the sample in parallel. -/
def normLoop : List ℚ → List ℚ → List ℚ → List ℚ
  | _, _, [] => []
  | m :: ms, mx :: mxs, v :: vs =>
      (if mx - m = 0 then 1 / 2 else (v - m) / (mx - m)) :: normLoop ms mxs vs
  | _, _, _ :: _ => []

/-- `Normalizer::normalize`: identity before initialization, otherwise the
per-index min-max map. -/
def Normalizer.normalize (n : Normalizer) (sample : List ℚ) : List ℚ :=
  if !n.inited then sample else normLoop n.min n.max sample

/-- Checked variant of `foldMin`: `none` models the Rust panic on an
out-of-bounds index `self.min[i]` when the sample is longer than the array. -/
def foldMin? : List ℚ → List ℚ → Option (List ℚ)
  | mins, [] => some mins
  | m :: mins, v :: vs => (foldMin? mins vs).map fun r => (if v < m then v else m) :: r
  | [], _ :: _ => none

/-- Checked variant of `foldMax`. -/
def foldMax? : List ℚ → List ℚ → Option (List ℚ)
  | maxs, [] => some maxs
  | m :: maxs, v :: vs => (foldMax? maxs vs).map fun r => (if m < v then v else m) :: r
  | [], _ :: _ => none

/-- Checked variant of `normLoop`: `none` models the panic on `self.min[i]` /
`self.max[i]` for an index past the arrays. -/
def normLoop? : List ℚ → List ℚ → List ℚ → Option (List ℚ)
  | _, _, [] => some []
  | m :: ms, mx :: mxs, v :: vs =>
      (normLoop? ms mxs vs).map fun r =>
        (if mx - m = 0 then 1 / 2 else (v - m) / (mx - m)) :: r
  | _, _, _ :: _ => none

/-- Checked `Normalizer::update`. -/
def Normalizer.update? (n : Normalizer) (sample : List ℚ) : Option Normalizer := do
  let mi ← foldMin? n.min sample
  let ma ← foldMax? n.max sample
  pure { min := mi, max := ma, inited := true }

/-- One sample step of the checked `Normalizer::fit_batch` loop. -/
def fitStep? (p : List ℚ × List ℚ) (sample : List ℚ) : Option (List ℚ × List ℚ) := do
  let mi ← foldMin? p.1 sample
  let ma ← foldMax? p.2 sample
  pure (mi, ma)

/-- Checked `Normalizer::fit_batch`. -/
def Normalizer.fit_batch? (n : Normalizer) (data : List (List ℚ)) : Option Normalizer := do
  let p ← data.foldlM fitStep? (n.min, n.max)
  pure { min := p.1, max := p.2, inited := true }

/-- Checked `Normalizer::normalize`: before initialization the input is
returned before any indexing happens, as in the Rust early return. -/
def Normalizer.normalize? (n : Normalizer) (sample : List ℚ) : Option (List ℚ) :=
  if !n.inited then some sample else normLoop? n.min n.max sample

/-- One call made to a `Normalizer`: `update` with one sample or `fit_batch`
with a batch. -/
inductive NOp where
  | upd (sample : List ℚ)
  | fit (data : List (List ℚ))
deriving DecidableEq, Repr

/-- Apply one call to a normalizer state. -/
def NOp.apply (n : Normalizer) : NOp → Normalizer
  | .upd s => n.update s
  | .fit d => n.fit_batch d

/-- The normalizer state reached from `Normalizer::new` by a sequence of
`update` / `fit_batch` calls. -/
def runOps (ops : List NOp) : Normalizer :=
  ops.foldl NOp.apply Normalizer.new

/-- Every sample handed to the call has exactly `NUM_FEATURES` entries. -/
def NOp.wf : NOp → Bool
  | .upd s => s.length == NUM_FEATURES
  | .fit d => d.all fun s => s.length == NUM_FEATURES

/-- The call processes at least one sample (an `update`, or a `fit_batch`
with a nonempty batch). -/
def NOp.seeds : NOp → Bool
  | .upd _ => true
  | .fit d => !d.isEmpty

/-- Modelled from the spec: the protocol enumeration of the excluded parser
(`src/parser.rs` is not in the sources), with its stable numeric encoding
`as_f64`; `TCP ↦ 0` is fixed by the `test_extract_features` unit test. -/
inductive Protocol where
  | tcp | udp | icmp | other
deriving DecidableEq, Repr

/-- Modelled from the spec: `Protocol::as_f64`, the stable numeric encoding. -/
def Protocol.as_f64 : Protocol → ℚ
  | .tcp => 0
  | .udp => 1
  | .icmp => 2
  | .other => 3

/-- Modelled from the spec: the `NetworkEvent` (FlowRecord) record produced by
the excluded parser — timestamp (only its hour-of-day, which chrono's
`Timelike::hour` keeps in `0..24`, is consumed here), ports, byte count,
duration in seconds, protocol. -/
structure NetworkEvent where
  src_port : Nat
  dst_port : Nat
  bytes : Nat
  duration : ℚ
  protocol : Protocol
  hour : Fin 24
deriving DecidableEq, Repr

/-- `extract_features` from `features.rs`: the 6-vector
`[src_port, dst_port, bytes, duration, protocol code, hour_of_day]`. -/
def extract_features (event : NetworkEvent) : List ℚ :=
  [(event.src_port : ℚ), (event.dst_port : ℚ), (event.bytes : ℚ),
   event.duration, event.protocol.as_f64, ((event.hour : Nat) : ℚ)]

/-- The command-line options of `main.rs` (the `Cli` struct). -/
structure Cli where
  trees : Nat
  threshold : ℚ
  buffer_size : Nat
  retrain_interval : Nat
  output : String
  status_interval : Nat
deriving DecidableEq, Repr

/-- The `Cli` value produced when no option is supplied: each field takes its
`default_value_t` / `default_value` from `main.rs`. -/
def Cli.defaults : Cli :=
  { trees := 100
    threshold := 0.65
    buffer_size := 256
    retrain_interval := 1000
    output := "anomalies.json"
    status_interval := 100 }

/-- The `DetectorConfig` struct handed to `Detector::new`. -/
structure DetectorConfig where
  n_trees : Nat
  buffer_size : Nat
  threshold : ℚ
  retrain_interval : Nat
deriving DecidableEq, Repr

/-- The construction of `config` from the parsed `Cli` in `main`. -/
def configOf (cli : Cli) : DetectorConfig :=
  { n_trees := cli.trees
    buffer_size := cli.buffer_size
    threshold := cli.threshold
    retrain_interval := cli.retrain_interval }

/-! ### Basic lemmas about the fold loops -/

theorem foldMin_length (mins vs : List ℚ) : (foldMin mins vs).length = mins.length := by
  induction mins generalizing vs with
  | nil => cases vs <;> simp [foldMin]
  | cons m mins ih =>
    cases vs with
    | nil => simp [foldMin]
    | cons v vs => simp [foldMin, ih]

theorem foldMax_length (maxs vs : List ℚ) : (foldMax maxs vs).length = maxs.length := by
  induction maxs generalizing vs with
  | nil => cases vs <;> simp [foldMax]
  | cons m maxs ih =>
    cases vs with
    | nil => simp [foldMax]
    | cons v vs => simp [foldMax, ih]

theorem foldMin_getD (mins vs : List ℚ) (i : Nat) (hv : i < vs.length)
    (hm : i < mins.length) :
    (foldMin mins vs).getD i 0 =
      if vs.getD i 0 < mins.getD i 0 then vs.getD i 0 else mins.getD i 0 := by
  induction mins generalizing vs i with
  | nil => simp at hm
  | cons m mins ih =>
    cases vs with
    | nil => simp at hv
    | cons v vs =>
      cases i with
      | zero => simp [foldMin]
      | succ i =>
        simp only [foldMin, List.getD_cons_succ]
        exact ih vs i (by simpa using hv) (by simpa using hm)

theorem foldMax_getD (maxs vs : List ℚ) (i : Nat) (hv : i < vs.length)
    (hm : i < maxs.length) :
    (foldMax maxs vs).getD i 0 =
      if maxs.getD i 0 < vs.getD i 0 then vs.getD i 0 else maxs.getD i 0 := by
  induction maxs generalizing vs i with
  | nil => simp at hm
  | cons m maxs ih =>
    cases vs with
    | nil => simp at hv
    | cons v vs =>
      cases i with
      | zero => simp [foldMax]
      | succ i =>
        simp only [foldMax, List.getD_cons_succ]
        exact ih vs i (by simpa using hv) (by simpa using hm)

theorem foldMin_getD_of_le (mins vs : List ℚ) (i : Nat) (hv : vs.length ≤ i) :
    (foldMin mins vs).getD i 0 = mins.getD i 0 := by
  induction mins generalizing vs i with
  | nil => cases vs <;> simp [foldMin]
  | cons m mins ih =>
    cases vs with
    | nil => simp [foldMin]
    | cons v vs =>
      cases i with
      | zero => simp at hv
      | succ i =>
        simp only [foldMin, List.getD_cons_succ]
        exact ih vs i (by simpa using hv)

theorem foldMax_getD_of_le (maxs vs : List ℚ) (i : Nat) (hv : vs.length ≤ i) :
    (foldMax maxs vs).getD i 0 = maxs.getD i 0 := by
  induction maxs generalizing vs i with
  | nil => cases vs <;> simp [foldMax]
  | cons m maxs ih =>
    cases vs with
    | nil => simp [foldMax]
    | cons v vs =>
      cases i with
      | zero => simp at hv
      | succ i =>
        simp only [foldMax, List.getD_cons_succ]
        exact ih vs i (by simpa using hv)

theorem foldMin_getD_le_self (mins vs : List ℚ) (i : Nat) (hm : i < mins.length) :
    (foldMin mins vs).getD i 0 ≤ mins.getD i 0 := by
  rcases lt_or_le i vs.length with hv | hv
  · rw [foldMin_getD mins vs i hv hm]
    split <;> simp_all [le_of_lt]
  · rw [foldMin_getD_of_le mins vs i hv]

theorem self_le_foldMax_getD (maxs vs : List ℚ) (i : Nat) (hm : i < maxs.length) :
    maxs.getD i 0 ≤ (foldMax maxs vs).getD i 0 := by
  rcases lt_or_le i vs.length with hv | hv
  · rw [foldMax_getD maxs vs i hv hm]
    split <;> simp_all [le_of_lt]
  · rw [foldMax_getD_of_le maxs vs i hv]

theorem foldMin_getD_le_sample (mins vs : List ℚ) (i : Nat) (hv : i < vs.length)
    (hm : i < mins.length) :
    (foldMin mins vs).getD i 0 ≤ vs.getD i 0 := by
  rw [foldMin_getD mins vs i hv hm]
  split <;> simp_all [le_of_not_lt]

theorem sample_le_foldMax_getD (maxs vs : List ℚ) (i : Nat) (hv : i < vs.length)
    (hm : i < maxs.length) :
    vs.getD i 0 ≤ (foldMax maxs vs).getD i 0 := by
  rw [foldMax_getD maxs vs i hv hm]
  split <;> simp_all [le_of_not_lt]

/-! ### `fit_batch` versus iterated `update` -/

theorem foldl_update_min (n : Normalizer) (data : List (List ℚ)) :
    (List.foldl Normalizer.update n data).min = data.foldl foldMin n.min := by
  induction data generalizing n with
  | nil => rfl
  | cons d ds ih => simpa using ih (n.update d)

theorem foldl_update_max (n : Normalizer) (data : List (List ℚ)) :
    (List.foldl Normalizer.update n data).max = data.foldl foldMax n.max := by
  induction data generalizing n with
  | nil => rfl
  | cons d ds ih => simpa using ih (n.update d)

theorem foldl_update_inited (n : Normalizer) (data : List (List ℚ)) (h : data ≠ []) :
    (List.foldl Normalizer.update n data).inited = true := by
  induction data generalizing n with
  | nil => exact absurd rfl h
  | cons d ds ih =>
    cases ds with
    | nil => rfl
    | cons e es => simpa using ih (n.update d) (by simp)

theorem foldl_foldMin_length (mins : List ℚ) (data : List (List ℚ)) :
    (data.foldl foldMin mins).length = mins.length := by
  induction data generalizing mins with
  | nil => rfl
  | cons d ds ih => simpa [foldMin_length] using ih (foldMin mins d)

theorem foldl_foldMax_length (maxs : List ℚ) (data : List (List ℚ)) :
    (data.foldl foldMax maxs).length = maxs.length := by
  induction data generalizing maxs with
  | nil => rfl
  | cons d ds ih => simpa [foldMax_length] using ih (foldMax maxs d)

/-! ### The `min ≤ max` invariant machinery -/

/-- After one loop pass with a sample that covers index `i`, the bounds at `i`
bracket the sample's value there, whatever the previous bounds were. -/
theorem fold_bounds_include (mins maxs vs : List ℚ) (i : Nat) (hv : i < vs.length)
    (hm : i < mins.length) (hM : i < maxs.length) :
    (foldMin mins vs).getD i 0 ≤ vs.getD i 0 ∧
      vs.getD i 0 ≤ (foldMax maxs vs).getD i 0 :=
  ⟨foldMin_getD_le_sample mins vs i hv hm, sample_le_foldMax_getD maxs vs i hv hM⟩

/-- The state invariant for claim C2: length-6 arrays with `min ≤ max`
pointwise. -/
def BndOK (n : Normalizer) : Prop :=
  n.min.length = NUM_FEATURES ∧ n.max.length = NUM_FEATURES ∧
    ∀ i, i < NUM_FEATURES → n.min.getD i 0 ≤ n.max.getD i 0

theorem update_bndOK (n : Normalizer) (s : List ℚ) (hs : s.length = NUM_FEATURES)
    (hm : n.min.length = NUM_FEATURES) (hM : n.max.length = NUM_FEATURES) :
    BndOK (n.update s) := by
  refine ⟨by simp [Normalizer.update, foldMin_length, hm],
          by simp [Normalizer.update, foldMax_length, hM], fun i hi => ?_⟩
  have h := fold_bounds_include n.min n.max s i (by omega) (by omega) (by omega)
  simpa [Normalizer.update] using h.1.trans h.2

theorem fit_batch_bndOK (n : Normalizer) (data : List (List ℚ))
    (hd : ∀ s ∈ data, s.length = NUM_FEATURES)
    (hm : n.min.length = NUM_FEATURES) (hM : n.max.length = NUM_FEATURES)
    (hprev : data = [] → ∀ i, i < NUM_FEATURES → n.min.getD i 0 ≤ n.max.getD i 0) :
    BndOK (n.fit_batch data) := by
  induction data generalizing n with
  | nil =>
    exact ⟨by simpa [Normalizer.fit_batch], by simpa [Normalizer.fit_batch],
      by simpa [Normalizer.fit_batch] using hprev rfl⟩
  | cons d ds ih =>
    have hstep : Normalizer.fit_batch n (d :: ds) = Normalizer.fit_batch (n.update d) ds := by
      simp [Normalizer.fit_batch, Normalizer.update]
    rw [hstep]
    have hupd := update_bndOK n d (hd d (by simp)) hm hM
    exact ih (n.update d) (fun s hsm => hd s (by simp [hsm])) hupd.1 hupd.2.1
      (fun _ => hupd.2.2)

theorem apply_bndOK (n : Normalizer) (op : NOp) (hwf : op.wf = true) (hn : BndOK n) :
    BndOK (NOp.apply n op) := by
  cases op with
  | upd s =>
    exact update_bndOK n s (by simpa [NOp.wf] using hwf) hn.1 hn.2.1
  | fit d =>
    have hall : ∀ s ∈ d, s.length = NUM_FEATURES := by simpa [NOp.wf] using hwf
    exact fit_batch_bndOK n d hall hn.1 hn.2.1 (fun _ => hn.2.2)

theorem apply_seeds_bndOK (n : Normalizer) (op : NOp) (hwf : op.wf = true)
    (hseed : op.seeds = true) (hm : n.min.length = NUM_FEATURES)
    (hM : n.max.length = NUM_FEATURES) : BndOK (NOp.apply n op) := by
  cases op with
  | upd s => exact update_bndOK n s (by simpa [NOp.wf] using hwf) hm hM
  | fit d =>
    cases d with
    | nil => simp [NOp.seeds] at hseed
    | cons s ds =>
      have hall : s.length = NUM_FEATURES ∧ ∀ x ∈ ds, x.length = NUM_FEATURES := by
        simpa [NOp.wf] using hwf
      refine fit_batch_bndOK n (s :: ds) ?_ hm hM (by simp)
      intro t ht
      rcases List.mem_cons.mp ht with hte | ht'
      · exact hte ▸ hall.1
      · exact hall.2 t ht'

theorem apply_min_length (n : Normalizer) (op : NOp) :
    (NOp.apply n op).min.length = n.min.length := by
  cases op with
  | upd s => simp [NOp.apply, Normalizer.update, foldMin_length]
  | fit d => simp [NOp.apply, Normalizer.fit_batch, foldl_foldMin_length]

theorem apply_max_length (n : Normalizer) (op : NOp) :
    (NOp.apply n op).max.length = n.max.length := by
  cases op with
  | upd s => simp [NOp.apply, Normalizer.update, foldMax_length]
  | fit d => simp [NOp.apply, Normalizer.fit_batch, foldl_foldMax_length]

theorem foldl_apply_bndOK (ops : List NOp) (n : Normalizer)
    (hwf : ∀ op ∈ ops, op.wf = true)
    (hm : n.min.length = NUM_FEATURES) (hM : n.max.length = NUM_FEATURES)
    (hstart : (∃ op ∈ ops, op.seeds = true) ∨ BndOK n) :
    BndOK (List.foldl NOp.apply n ops) := by
  induction ops generalizing n with
  | nil =>
    rcases hstart with ⟨op, hop, _⟩ | h
    · simp at hop
    · simpa using h
  | cons op ops ih =>
    have hm' : (NOp.apply n op).min.length = NUM_FEATURES := by
      rw [apply_min_length]; exact hm
    have hM' : (NOp.apply n op).max.length = NUM_FEATURES := by
      rw [apply_max_length]; exact hM
    have hwf' : ∀ o ∈ ops, o.wf = true := fun o ho => hwf o (by simp [ho])
    simp only [List.foldl_cons]
    rcases hstart with ⟨o, ho, hos⟩ | h
    · rcases List.mem_cons.mp ho with hoe | ho'
      · exact ih (NOp.apply n op) hwf' hm' hM'
          (Or.inr (apply_seeds_bndOK n op (hwf op (by simp)) (hoe ▸ hos) hm hM))
      · exact ih (NOp.apply n op) hwf' hm' hM' (Or.inl ⟨o, ho', hos⟩)
    · exact ih (NOp.apply n op) hwf' hm' hM'
        (Or.inr (apply_bndOK n op (hwf op (by simp)) h))

/-! ### Lemmas about `normLoop` -/

theorem normLoop_getD (ms mxs vs : List ℚ) (i : Nat) (hv : i < vs.length)
    (hm : i < ms.length) (hM : i < mxs.length) :
    (normLoop ms mxs vs).getD i 0 =
      if mxs.getD i 0 - ms.getD i 0 = 0 then 1 / 2
      else (vs.getD i 0 - ms.getD i 0) / (mxs.getD i 0 - ms.getD i 0) := by
  induction vs generalizing ms mxs i with
  | nil => simp at hv
  | cons v vs ih =>
    cases ms with
    | nil => simp at hm
    | cons m ms =>
      cases mxs with
      | nil => simp at hM
      | cons mx mxs =>
        cases i with
        | zero => simp [normLoop]
        | succ i =>
          simp only [normLoop, List.getD_cons_succ]
          exact ih ms mxs i (by simpa using hv) (by simpa using hm) (by simpa using hM)

theorem normLoop_mem_unitInterval (ms mxs vs : List ℚ)
    (hm : vs.length ≤ ms.length) (hM : vs.length ≤ mxs.length)
    (hb : ∀ i, i < vs.length →
      ms.getD i 0 ≤ mxs.getD i 0 ∧ ms.getD i 0 ≤ vs.getD i 0 ∧
        vs.getD i 0 ≤ mxs.getD i 0) :
    ∀ x ∈ normLoop ms mxs vs, 0 ≤ x ∧ x ≤ 1 := by
  induction vs generalizing ms mxs with
  | nil => simp [normLoop]
  | cons v vs ih =>
    cases ms with
    | nil => simp at hm
    | cons m ms =>
      cases mxs with
      | nil => simp at hM
      | cons mx mxs =>
        intro x hx
        rcases List.mem_cons.mp hx with hxe | hx'
        · obtain ⟨h1, h2, h3⟩ := hb 0 (by simp)
          simp only [List.getD_cons_zero] at h1 h2 h3
          subst hxe
          by_cases hr : mx - m = 0
          · rw [if_pos hr]
            norm_num
          · have hrpos : 0 < mx - m := lt_of_le_of_ne (by linarith) (Ne.symm hr)
            rw [if_neg hr]
            constructor
            · exact div_nonneg (by linarith) (le_of_lt hrpos)
            · rw [div_le_one hrpos]
              linarith
        · refine ih ms mxs (by simpa using hm) (by simpa using hM) ?_ x hx'
          intro i hi
          have := hb (i + 1) (by simpa using hi)
          simpa using this

/-! ### Numeric facts about the sentinel bounds -/

theorem f64MAX_pos : 0 < f64MAX := by norm_num [f64MAX]

theorem f64MIN_neg : f64MIN < 0 := by
  simpa [f64MIN] using f64MAX_pos

theorem f64MIN_lt_f64MAX : f64MIN < f64MAX := lt_trans f64MIN_neg f64MAX_pos

/-! ### Folding a constant value at one index (for the degenerate case) -/

theorem foldl_foldMin_getD_const (data : List (List ℚ)) (mins : List ℚ) (i : Nat)
    (c : ℚ) (hi : i < mins.length)
    (hd : ∀ s ∈ data, i < s.length ∧ s.getD i 0 = c)
    (hc : c ≤ mins.getD i 0) (hne : data ≠ []) :
    (data.foldl foldMin mins).getD i 0 = c := by
  induction data generalizing mins with
  | nil => exact absurd rfl hne
  | cons d ds ih =>
    obtain ⟨hdl, hdc⟩ := hd d (by simp)
    have hstep : (foldMin mins d).getD i 0 = c := by
      rw [foldMin_getD mins d i hdl hi, hdc]
      rcases lt_or_le c (mins.getD i 0) with h | h
      · rw [if_pos h]
      · rw [if_neg (not_lt.mpr h)]
        exact le_antisymm h hc
    cases ds with
    | nil => simpa using hstep
    | cons e es =>
      simp only [List.foldl_cons]
      refine ih (foldMin mins d) (by rw [foldMin_length]; exact hi) ?_ ?_ (by simp)
      · intro s hs
        exact hd s (List.mem_cons_of_mem d hs)
      · rw [hstep]

theorem foldl_foldMax_getD_const (data : List (List ℚ)) (maxs : List ℚ) (i : Nat)
    (c : ℚ) (hi : i < maxs.length)
    (hd : ∀ s ∈ data, i < s.length ∧ s.getD i 0 = c)
    (hc : maxs.getD i 0 ≤ c) (hne : data ≠ []) :
    (data.foldl foldMax maxs).getD i 0 = c := by
  induction data generalizing maxs with
  | nil => exact absurd rfl hne
  | cons d ds ih =>
    obtain ⟨hdl, hdc⟩ := hd d (by simp)
    have hstep : (foldMax maxs d).getD i 0 = c := by
      rw [foldMax_getD maxs d i hdl hi, hdc]
      rcases lt_or_le (maxs.getD i 0) c with h | h
      · rw [if_pos h]
      · rw [if_neg (not_lt.mpr h)]
        exact le_antisymm hc h
    cases ds with
    | nil => simpa using hstep
    | cons e es =>
      simp only [List.foldl_cons]
      refine ih (foldMax maxs d) (by rw [foldMax_length]; exact hi) ?_ ?_ (by simp)
      · intro s hs
        exact hd s (List.mem_cons_of_mem d hs)
      · rw [hstep]

/-! ### The checked loops agree with the total ones in bounds -/

theorem foldMin?_eq_some (mins vs : List ℚ) (h : vs.length ≤ mins.length) :
    foldMin? mins vs = some (foldMin mins vs) := by
  induction mins generalizing vs with
  | nil =>
    cases vs with
    | nil => rfl
    | cons v vs => simp at h
  | cons m mins ih =>
    cases vs with
    | nil => rfl
    | cons v vs =>
      simp only [foldMin?, foldMin, ih vs (by simpa using h)]
      rfl

theorem foldMax?_eq_some (maxs vs : List ℚ) (h : vs.length ≤ maxs.length) :
    foldMax? maxs vs = some (foldMax maxs vs) := by
  induction maxs generalizing vs with
  | nil =>
    cases vs with
    | nil => rfl
    | cons v vs => simp at h
  | cons m maxs ih =>
    cases vs with
    | nil => rfl
    | cons v vs =>
      simp only [foldMax?, foldMax, ih vs (by simpa using h)]
      rfl

theorem normLoop?_eq_some (ms mxs vs : List ℚ) (hm : vs.length ≤ ms.length)
    (hM : vs.length ≤ mxs.length) :
    normLoop? ms mxs vs = some (normLoop ms mxs vs) := by
  induction vs generalizing ms mxs with
  | nil => cases ms <;> cases mxs <;> rfl
  | cons v vs ih =>
    cases ms with
    | nil => simp at hm
    | cons m ms =>
      cases mxs with
      | nil => simp at hM
      | cons mx mxs =>
        simp only [normLoop?, normLoop,
          ih ms mxs (by simpa using hm) (by simpa using hM)]
        rfl

theorem update?_eq_some (n : Normalizer) (s : List ℚ) (hm : s.length ≤ n.min.length)
    (hM : s.length ≤ n.max.length) : n.update? s = some (n.update s) := by
  simp [Normalizer.update?, Normalizer.update, foldMin?_eq_some n.min s hm,
    foldMax?_eq_some n.max s hM]

theorem foldlM_fitStep?_eq_some (data : List (List ℚ)) (mi ma : List ℚ)
    (hd : ∀ s ∈ data, s.length ≤ mi.length ∧ s.length ≤ ma.length) :
    data.foldlM fitStep? (mi, ma) =
      some (data.foldl foldMin mi, data.foldl foldMax ma) := by
  induction data generalizing mi ma with
  | nil => rfl
  | cons d ds ih =>
    obtain ⟨h1, h2⟩ := hd d (by simp)
    have hstep : fitStep? (mi, ma) d = some (foldMin mi d, foldMax ma d) := by
      simp [fitStep?, foldMin?_eq_some mi d h1, foldMax?_eq_some ma d h2]
    have hrest : ∀ s ∈ ds, s.length ≤ (foldMin mi d).length ∧
        s.length ≤ (foldMax ma d).length := by
      intro s hs
      obtain ⟨g1, g2⟩ := hd s (List.mem_cons_of_mem d hs)
      exact ⟨by rwa [foldMin_length], by rwa [foldMax_length]⟩
    simp only [List.foldlM_cons, hstep, Option.bind_some, List.foldl_cons]
    simpa using ih (foldMin mi d) (foldMax ma d) hrest

theorem fit_batch?_eq_some (n : Normalizer) (data : List (List ℚ))
    (hd : ∀ s ∈ data, s.length ≤ n.min.length ∧ s.length ≤ n.max.length) :
    n.fit_batch? data = some (n.fit_batch data) := by
  simp [Normalizer.fit_batch?, Normalizer.fit_batch,
    foldlM_fitStep?_eq_some data n.min n.max hd]

theorem normalize?_eq_some (n : Normalizer) (s : List ℚ) (hm : s.length ≤ n.min.length)
    (hM : s.length ≤ n.max.length) : n.normalize? s = some (n.normalize s) := by
  by_cases h : n.inited
  · simp [Normalizer.normalize?, Normalizer.normalize, h,
      normLoop?_eq_some n.min n.max s hm hM]
  · simp [Normalizer.normalize?, Normalizer.normalize, h]

/-! ### Facts about the fresh state -/

theorem new_min_getD (i : Nat) (hi : i < NUM_FEATURES) :
    Normalizer.new.min.getD i 0 = f64MAX := by
  have : i < 6 := hi
  interval_cases i <;> rfl

theorem new_max_getD (i : Nat) (hi : i < NUM_FEATURES) :
    Normalizer.new.max.getD i 0 = f64MIN := by
  have : i < 6 := hi
  interval_cases i <;> rfl

theorem new_min_length : Normalizer.new.min.length = NUM_FEATURES := by rfl

theorem new_max_length : Normalizer.new.max.length = NUM_FEATURES := by rfl

theorem aux_inited_apply (n : Normalizer) (op : NOp) : (NOp.apply n op).inited = true := by
  cases op <;> rfl

theorem aux_foldl_apply_inited (ops : List NOp) (n : Normalizer) (h : ops ≠ []) :
    (ops.foldl NOp.apply n).inited = true := by
  induction ops generalizing n with
  | nil => exact absurd rfl h
  | cons op ops ih =>
    cases ops with
    | nil => simpa using aux_inited_apply n op
    | cons o os => simpa using ih (NOp.apply n op) (by simp)

/-- Claim C1 (corrected): `fit_batch` agrees with iterated `update` on the
`min` and `max` arrays for every batch, and agrees on the whole state
(including the `initialized` flag) for every nonempty batch. -/
theorem C1_fit_batch_iterates_update (n : Normalizer) (data : List (List ℚ)) :
    (n.fit_batch data).min = (List.foldl Normalizer.update n data).min ∧
    (n.fit_batch data).max = (List.foldl Normalizer.update n data).max ∧
    (data ≠ [] → n.fit_batch data = List.foldl Normalizer.update n data) := by
  refine ⟨by rw [foldl_update_min]; rfl, by rw [foldl_update_max]; rfl, fun h => ?_⟩
  refine Normalizer.ext ?_ ?_ ?_
  · rw [foldl_update_min]; rfl
  · rw [foldl_update_max]; rfl
  · rw [foldl_update_inited n data h]; rfl

/-- Witness for C1: a concrete one-sample batch where `fit_batch` and
iterated `update` produce identical states. -/
theorem C1_witness :
    Normalizer.new.fit_batch [[1, 2, 3, 4, 5, 6]] =
      List.foldl Normalizer.update Normalizer.new [[1, 2, 3, 4, 5, 6]] :=
  (C1_fit_batch_iterates_update Normalizer.new [[1, 2, 3, 4, 5, 6]]).2.2 (by simp)

/-- Counterexample to C1 as stated: on the empty collection, `fit_batch` sets
the `initialized` flag while zero `update` calls leave the state untouched. -/
theorem C1_counterexample :
    Normalizer.new.fit_batch [] ≠ List.foldl Normalizer.update Normalizer.new [] := by
  intro h
  have h2 := congrArg Normalizer.inited h
  simp [Normalizer.fit_batch, Normalizer.new] at h2

/-- Claim C2 (corrected): for every state reached from `Normalizer::new` by
`update` / `fit_batch` calls whose samples all have 6 entries, if at least one
sample was processed then the flag is set and `min[i] ≤ max[i]` for all
`i < 6`. -/
theorem C2_min_le_max (ops : List NOp) (hwf : ∀ op ∈ ops, op.wf = true)
    (hseed : ∃ op ∈ ops, op.seeds = true) :
    (runOps ops).inited = true ∧
      ∀ i, i < NUM_FEATURES →
        (runOps ops).min.getD i 0 ≤ (runOps ops).max.getD i 0 := by
  constructor
  · refine aux_foldl_apply_inited ops Normalizer.new ?_
    rcases hseed with ⟨op, hop, _⟩
    intro he
    rw [he] at hop
    simp at hop
  · exact (foldl_apply_bndOK ops Normalizer.new hwf new_min_length new_max_length
      (Or.inl hseed)).2.2

/-- Witness for C2: one `update` with a 6-entry sample. -/
theorem C2_witness :
    (runOps [NOp.upd [1, 2, 3, 4, 5, 6]]).inited = true ∧
      ∀ i, i < NUM_FEATURES →
        (runOps [NOp.upd [1, 2, 3, 4, 5, 6]]).min.getD i 0 ≤
          (runOps [NOp.upd [1, 2, 3, 4, 5, 6]]).max.getD i 0 :=
  C2_min_le_max [NOp.upd [1, 2, 3, 4, 5, 6]] (by decide) (by decide)

/-- Counterexample to C2 as stated: after a `fit_batch` with an empty batch
(a reachable sequence whose samples vacuously all have 6 entries) the flag is
set but `min[0] > max[0]` (the sentinels `f64::MAX > f64::MIN` survive). -/
theorem C2_counterexample :
    (∀ op ∈ [NOp.fit []], op.wf = true) ∧
      (runOps [NOp.fit []]).inited = true ∧
      ¬((runOps [NOp.fit []]).min.getD 0 0 ≤ (runOps [NOp.fit []]).max.getD 0 0) := by
  have e : runOps [NOp.fit []] =
      { min := List.replicate 6 f64MAX, max := List.replicate 6 f64MIN,
        inited := true } := rfl
  refine ⟨by decide, by rw [e], ?_⟩
  rw [e]
  norm_num [List.replicate, f64MAX, f64MIN]

/-- Claim C3 (corrected): once initialized, `normalize` lands in `[0,1]` at
every index whose query value lies within the observed `min`/`max` bounds
(with `min ≤ max` there); the claim's unconditional version is false. -/
theorem C3_normalize_unit_interval (n : Normalizer) (q : List ℚ) (i : Nat)
    (hin : n.inited = true) (hq : i < q.length) (hm : q.length ≤ n.min.length)
    (hM : q.length ≤ n.max.length)
    (h1 : n.min.getD i 0 ≤ n.max.getD i 0)
    (h2 : n.min.getD i 0 ≤ q.getD i 0) (h3 : q.getD i 0 ≤ n.max.getD i 0) :
    0 ≤ (n.normalize q).getD i 0 ∧ (n.normalize q).getD i 0 ≤ 1 := by
  have hni : n.normalize q = normLoop n.min n.max q := by
    simp [Normalizer.normalize, hin]
  rw [hni, normLoop_getD n.min n.max q i hq (lt_of_lt_of_le hq hm)
    (lt_of_lt_of_le hq hM)]
  by_cases hr : n.max.getD i 0 - n.min.getD i 0 = 0
  · rw [if_pos hr]
    norm_num
  · have hrpos : 0 < n.max.getD i 0 - n.min.getD i 0 :=
      lt_of_le_of_ne (by linarith) (Ne.symm hr)
    rw [if_neg hr]
    constructor
    · exact div_nonneg (by linarith) hrpos.le
    · rw [div_le_one hrpos]
      linarith

/-- Witness for C3: a concrete initialized state and an in-bounds query. -/
theorem C3_witness :
    0 ≤ (Normalizer.normalize
          { min := [0, 0, 0, 0, 0, 0], max := [1, 1, 1, 1, 1, 1], inited := true }
          [0, 1, 0, 1, 0, 1]).getD 0 0 ∧
      (Normalizer.normalize
          { min := [0, 0, 0, 0, 0, 0], max := [1, 1, 1, 1, 1, 1], inited := true }
          [0, 1, 0, 1, 0, 1]).getD 0 0 ≤ 1 :=
  C3_normalize_unit_interval
    { min := [0, 0, 0, 0, 0, 0], max := [1, 1, 1, 1, 1, 1], inited := true }
    [0, 1, 0, 1, 0, 1] 0 rfl (by norm_num) (by norm_num) (by norm_num)
    (by norm_num) (by norm_num) (by norm_num)

/-- Counterexample to C3 as stated: a normalizer initialized from samples with
range `[0,1]` maps the query value `2` to `2 ∉ [0,1]` — `normalize` does not
always land in `[0,1]`. -/
theorem C3_counterexample :
    (Normalizer.new.fit_batch [[0, 0, 0, 0, 0, 0], [1, 1, 1, 1, 1, 1]]).inited = true ∧
      1 < ((Normalizer.new.fit_batch [[0, 0, 0, 0, 0, 0], [1, 1, 1, 1, 1, 1]]).normalize
            [2, 2, 2, 2, 2, 2]).getD 0 0 := by
  have e : Normalizer.new.fit_batch [[0, 0, 0, 0, 0, 0], [1, 1, 1, 1, 1, 1]] =
      { min := [0, 0, 0, 0, 0, 0], max := [1, 1, 1, 1, 1, 1], inited := true } := by
    norm_num [Normalizer.fit_batch, Normalizer.new, NUM_FEATURES, List.replicate,
      foldMin, foldMax, f64MAX, f64MIN]
  rw [e]
  refine ⟨rfl, ?_⟩
  norm_num [Normalizer.normalize, normLoop]

/-- Claim C4 (corrected): once initialized, at every index with nonzero range
`normalize` is exactly the unclamped linear map; when the range is positive
(as it is once a sample has been seen) a query below `min` goes negative and a
query above `max` exceeds 1. -/
theorem C4_linear_no_clamp (n : Normalizer) (q : List ℚ) (i : Nat)
    (hin : n.inited = true) (hq : i < q.length) (hm : i < n.min.length)
    (hM : i < n.max.length)
    (hr : n.max.getD i 0 - n.min.getD i 0 ≠ 0) :
    (n.normalize q).getD i 0 =
        (q.getD i 0 - n.min.getD i 0) / (n.max.getD i 0 - n.min.getD i 0) ∧
      (0 < n.max.getD i 0 - n.min.getD i 0 →
        (q.getD i 0 < n.min.getD i 0 → (n.normalize q).getD i 0 < 0) ∧
        (n.max.getD i 0 < q.getD i 0 → 1 < (n.normalize q).getD i 0)) := by
  have hform : (n.normalize q).getD i 0 =
      (q.getD i 0 - n.min.getD i 0) / (n.max.getD i 0 - n.min.getD i 0) := by
    have hni : n.normalize q = normLoop n.min n.max q := by
      simp [Normalizer.normalize, hin]
    rw [hni, normLoop_getD n.min n.max q i hq hm hM, if_neg hr]
  refine ⟨hform, fun hpos => ⟨fun hlt => ?_, fun hgt => ?_⟩⟩
  · rw [hform]
    exact div_neg_of_neg_of_pos (by linarith) hpos
  · rw [hform]
    rw [lt_div_iff₀ hpos]
    linarith

/-- Witness for C4: a concrete initialized state with range 1; the query value
2 maps to `(2-0)/(1-0)` and, lying above `max`, exceeds 1. -/
theorem C4_witness :
    (Normalizer.normalize
          { min := [0, 0, 0, 0, 0, 0], max := [1, 1, 1, 1, 1, 1], inited := true }
          [2, 2, 2, 2, 2, 2]).getD 0 0 =
        ([2, 2, 2, 2, 2, 2].getD 0 0 -
            ([0, 0, 0, 0, 0, 0] : List ℚ).getD 0 0) /
          (([1, 1, 1, 1, 1, 1] : List ℚ).getD 0 0 -
            ([0, 0, 0, 0, 0, 0] : List ℚ).getD 0 0) ∧
      (0 < ([1, 1, 1, 1, 1, 1] : List ℚ).getD 0 0 -
            ([0, 0, 0, 0, 0, 0] : List ℚ).getD 0 0 →
        (([2, 2, 2, 2, 2, 2] : List ℚ).getD 0 0 <
              ([0, 0, 0, 0, 0, 0] : List ℚ).getD 0 0 →
          (Normalizer.normalize
              { min := [0, 0, 0, 0, 0, 0], max := [1, 1, 1, 1, 1, 1], inited := true }
              [2, 2, 2, 2, 2, 2]).getD 0 0 < 0) ∧
        (([1, 1, 1, 1, 1, 1] : List ℚ).getD 0 0 <
              ([2, 2, 2, 2, 2, 2] : List ℚ).getD 0 0 →
          1 < (Normalizer.normalize
              { min := [0, 0, 0, 0, 0, 0], max := [1, 1, 1, 1, 1, 1], inited := true }
              [2, 2, 2, 2, 2, 2]).getD 0 0)) :=
  C4_linear_no_clamp
    { min := [0, 0, 0, 0, 0, 0], max := [1, 1, 1, 1, 1, 1], inited := true }
    [2, 2, 2, 2, 2, 2] 0 rfl (by norm_num) (by norm_num) (by norm_num) (by norm_num)

/-- Counterexample to C4 as stated: after an empty `fit_batch` the flag is set
and the range at index 0 is nonzero (but negative); the query 0 lies strictly
below `min[0]`, yet the result is not negative. -/
theorem C4_counterexample :
    (Normalizer.new.fit_batch []).inited = true ∧
      (Normalizer.new.fit_batch []).max.getD 0 0 -
          (Normalizer.new.fit_batch []).min.getD 0 0 ≠ 0 ∧
      ([0, 0, 0, 0, 0, 0] : List ℚ).getD 0 0 <
        (Normalizer.new.fit_batch []).min.getD 0 0 ∧
      ¬(((Normalizer.new.fit_batch []).normalize [0, 0, 0, 0, 0, 0]).getD 0 0 < 0) := by
  have e : Normalizer.new.fit_batch [] =
      { min := List.replicate 6 f64MAX, max := List.replicate 6 f64MIN,
        inited := true } := rfl
  rw [e]
  refine ⟨rfl, ?_, ?_, ?_⟩
  · norm_num [List.replicate, f64MAX, f64MIN]
  · norm_num [List.replicate, f64MAX]
  · have hne : f64MIN - f64MAX ≠ 0 := by norm_num [f64MIN, f64MAX]
    norm_num [Normalizer.normalize, normLoop, List.replicate, hne, f64MIN, f64MAX]

theorem f64MIN_le_five : f64MIN ≤ (5 : ℚ) := by norm_num [f64MIN, f64MAX]

theorem five_le_f64MAX : (5 : ℚ) ≤ f64MAX := by norm_num [f64MAX]

/-- Claim C5: a normalizer fitted from a nonempty batch of 6-entry samples
that all carry the same (finite-double) value `c` at index `i` has zero range
there, so `normalize` returns exactly `1/2` at `i` for every query covering
index `i`, whatever the query's value there. -/
theorem C5_degenerate_half (data : List (List ℚ)) (i : Nat) (c : ℚ) (q : List ℚ)
    (hne : data ≠ []) (hi : i < NUM_FEATURES)
    (hd : ∀ s ∈ data, s.length = NUM_FEATURES ∧ s.getD i 0 = c)
    (hq : i < q.length) (hclo : f64MIN ≤ c) (hchi : c ≤ f64MAX) :
    ((Normalizer.new.fit_batch data).normalize q).getD i 0 = 1 / 2 := by
  have hd' : ∀ s ∈ data, i < s.length ∧ s.getD i 0 = c := by
    intro s hs
    obtain ⟨h1, h2⟩ := hd s hs
    exact ⟨by rw [h1]; exact hi, h2⟩
  have hmin : (Normalizer.new.fit_batch data).min.getD i 0 = c := by
    refine foldl_foldMin_getD_const data Normalizer.new.min i c ?_ hd' ?_ hne
    · rw [new_min_length]; exact hi
    · rw [new_min_getD i hi]; exact hchi
  have hmax : (Normalizer.new.fit_batch data).max.getD i 0 = c := by
    refine foldl_foldMax_getD_const data Normalizer.new.max i c ?_ hd' ?_ hne
    · rw [new_max_length]; exact hi
    · rw [new_max_getD i hi]; exact hclo
  have hni : (Normalizer.new.fit_batch data).normalize q =
      normLoop (Normalizer.new.fit_batch data).min
        (Normalizer.new.fit_batch data).max q := by
    simp [Normalizer.normalize, Normalizer.fit_batch]
  have hmlen : (Normalizer.new.fit_batch data).min.length = NUM_FEATURES := by
    simpa [Normalizer.fit_batch, foldl_foldMin_length] using new_min_length
  have hMlen : (Normalizer.new.fit_batch data).max.length = NUM_FEATURES := by
    simpa [Normalizer.fit_batch, foldl_foldMax_length] using new_max_length
  rw [hni, normLoop_getD _ _ q i hq (by rw [hmlen]; exact hi) (by rw [hMlen]; exact hi),
    hmin, hmax]
  simp

/-- Witness for C5: both samples carry 5 at index 0; the query carries 7 there
and still normalizes to `1/2`. -/
theorem C5_witness :
    ((Normalizer.new.fit_batch
          [[5, 5, 5, 5, 5, 5], [5, 5, 5, 5, 5, 5]]).normalize
        [7, 1, 2, 3, 4, 5]).getD 0 0 = 1 / 2 :=
  C5_degenerate_half [[5, 5, 5, 5, 5, 5], [5, 5, 5, 5, 5, 5]] 0 5 [7, 1, 2, 3, 4, 5]
    (by simp) (by decide) (by simp [NUM_FEATURES]) (by decide)
    f64MIN_le_five five_le_f64MAX

/-- Claim C6: on a freshly constructed normalizer (no `update` / `fit_batch`
call yet, flag false) `normalize` returns its input unchanged. -/
theorem C6_uninitialized_identity (sample : List ℚ) :
    Normalizer.new.normalize sample = sample := by
  simp [Normalizer.normalize, Normalizer.new]

/-- Claim C7: after `update` with a 6-entry sample on any state with length-6
arrays, the new bounds contain the sample, the old bounds only widened, and
the flag is set. -/
theorem C7_update_widens (n : Normalizer) (s : List ℚ)
    (hs : s.length = NUM_FEATURES) (hm : n.min.length = NUM_FEATURES)
    (hM : n.max.length = NUM_FEATURES) :
    (∀ i, i < NUM_FEATURES →
        (n.update s).min.getD i 0 ≤ s.getD i 0 ∧
          s.getD i 0 ≤ (n.update s).max.getD i 0) ∧
      (∀ i, i < NUM_FEATURES →
        (n.update s).min.getD i 0 ≤ n.min.getD i 0 ∧
          n.max.getD i 0 ≤ (n.update s).max.getD i 0) ∧
      (n.update s).inited = true := by
  refine ⟨fun i hi => ?_, fun i hi => ?_, rfl⟩
  · exact fold_bounds_include n.min n.max s i (by rw [hs]; exact hi)
      (by rw [hm]; exact hi) (by rw [hM]; exact hi)
  · exact ⟨foldMin_getD_le_self n.min s i (by rw [hm]; exact hi),
      self_le_foldMax_getD n.max s i (by rw [hM]; exact hi)⟩

/-- Witness for C7: one concrete `update` on the fresh state. -/
theorem C7_witness :
    (∀ i, i < NUM_FEATURES →
        (Normalizer.new.update [1, 2, 3, 4, 5, 6]).min.getD i 0 ≤
            ([1, 2, 3, 4, 5, 6] : List ℚ).getD i 0 ∧
          ([1, 2, 3, 4, 5, 6] : List ℚ).getD i 0 ≤
            (Normalizer.new.update [1, 2, 3, 4, 5, 6]).max.getD i 0) ∧
      (∀ i, i < NUM_FEATURES →
        (Normalizer.new.update [1, 2, 3, 4, 5, 6]).min.getD i 0 ≤
            Normalizer.new.min.getD i 0 ∧
          Normalizer.new.max.getD i 0 ≤
            (Normalizer.new.update [1, 2, 3, 4, 5, 6]).max.getD i 0) ∧
      (Normalizer.new.update [1, 2, 3, 4, 5, 6]).inited = true :=
  C7_update_widens Normalizer.new [1, 2, 3, 4, 5, 6] (by decide) rfl rfl

/-- Claim C8: for every event record, `extract_features` returns exactly the
6 values `[src_port, dst_port, bytes, duration, protocol code, hour]` in that
order, each the numeric conversion of the record field, with the hour in
`[0, 23]`. -/
theorem C8_extract_features (event : NetworkEvent) :
    (extract_features event).length = 6 ∧
      (extract_features event).getD 0 0 = (event.src_port : ℚ) ∧
      (extract_features event).getD 1 0 = (event.dst_port : ℚ) ∧
      (extract_features event).getD 2 0 = (event.bytes : ℚ) ∧
      (extract_features event).getD 3 0 = event.duration ∧
      (extract_features event).getD 4 0 = event.protocol.as_f64 ∧
      (extract_features event).getD 5 0 = ((event.hour : Nat) : ℚ) ∧
      0 ≤ ((event.hour : Nat) : ℚ) ∧ ((event.hour : Nat) : ℚ) ≤ 23 := by
  refine ⟨rfl, rfl, rfl, rfl, rfl, rfl, rfl, by positivity, ?_⟩
  have h := event.hour.isLt
  exact_mod_cast Nat.lt_succ_iff.mp h

/-- Claim C9: with length-6 `min`/`max` arrays and samples of length at most
6, the checked (panic-modelling) versions of `update`, `fit_batch` and
`normalize` never hit the out-of-bounds branch and agree with the total
embeddings. -/
theorem C9_no_panic (n : Normalizer) (s : List ℚ) (data : List (List ℚ))
    (hm : n.min.length = NUM_FEATURES) (hM : n.max.length = NUM_FEATURES)
    (hs : s.length ≤ NUM_FEATURES) (hd : ∀ t ∈ data, t.length ≤ NUM_FEATURES) :
    n.update? s = some (n.update s) ∧
      n.fit_batch? data = some (n.fit_batch data) ∧
      n.normalize? s = some (n.normalize s) := by
  refine ⟨update?_eq_some n s (by rw [hm]; exact hs) (by rw [hM]; exact hs),
    fit_batch?_eq_some n data ?_,
    normalize?_eq_some n s (by rw [hm]; exact hs) (by rw [hM]; exact hs)⟩
  intro t ht
  have h := hd t ht
  exact ⟨by rw [hm]; exact h, by rw [hM]; exact h⟩

/-- Witness for C9: the fresh state, a full-length sample and a two-sample
batch. -/
theorem C9_witness :
    Normalizer.new.update? [1, 2, 3, 4, 5, 6] =
        some (Normalizer.new.update [1, 2, 3, 4, 5, 6]) ∧
      Normalizer.new.fit_batch? [[1, 2, 3, 4, 5, 6], [7, 8]] =
        some (Normalizer.new.fit_batch [[1, 2, 3, 4, 5, 6], [7, 8]]) ∧
      Normalizer.new.normalize? [1, 2, 3, 4, 5, 6] =
        some (Normalizer.new.normalize [1, 2, 3, 4, 5, 6]) :=
  C9_no_panic Normalizer.new [1, 2, 3, 4, 5, 6] [[1, 2, 3, 4, 5, 6], [7, 8]]
    rfl rfl (by decide) (by decide)

/-- Claim C10: with no command-line options the configuration handed to the
detector has exactly the documented defaults. -/
theorem C10_default_config :
    (configOf Cli.defaults).n_trees = 100 ∧
      (configOf Cli.defaults).threshold = 0.65 ∧
      (configOf Cli.defaults).buffer_size = 256 ∧
      (configOf Cli.defaults).retrain_interval = 1000 :=
  ⟨rfl, rfl, rfl, rfl⟩
